import Mathlib

/-!
# Verification of the `timedpool` repository

Shallow embedding of `src/timedpool/timedpool.py`: a dict with a maximum
size whose elements are deleted after a delay (`TimedPool`).

Modelling conventions:
* Python's insertion-ordered `dict` used for `self._cache` is modelled as an
  association list `List (K × Entry V)`; assigning to an existing key keeps
  its position, assigning a fresh key appends at the end (CPython 3.7+
  semantics).
* `datetime` values and `timedelta` durations are modelled as `Int`
  (timestamps and durations in some fixed unit); `datetime.now()` becomes an
  explicit `now : Int` argument to each operation that reads the clock.
* `raise FullException` / `raise KeyError` become `Except` results; a raise
  that happens before any mutation leaves the object unchanged, which is
  made explicit by `setState` (the state of the pool after a `set` call,
  whether or not it raised).
* `TimedPool` subclasses `dict` but never writes to the inherited dict
  storage (all writes go to `self._cache`); the inherited storage is the
  `dictStore` field, and the non-overridden dict methods (`__iter__`,
  `keys`, `get(key, default)`, ...) read it.
* The lock discipline (`with self._lock:` blocks) is modelled separately as
  per-method event traces (`Event`): each method body becomes the sequence
  of its cache accesses, lock acquisitions and releases, in source order.
-/

namespace Timedpool

/-- One value stored in the cache: the Python dict
`{'data': val, 'expireTime': datetime.now() + ttl}`. -/
structure Entry (V : Type) where
  data : V
  expireTime : Int
deriving DecidableEq, Repr

/-- Class `FullException`: "Exception signaling that the `TimedPool` is full." -/
inductive FullException where
  | mk
deriving DecidableEq, Repr

/-- Python's `KeyError`, raised by `self._cache[key]` and
`del self._cache[key]` on a missing key (the spec's `NotFoundError`). -/
inductive KeyError where
  | mk
deriving DecidableEq, Repr

variable {K V : Type} [DecidableEq K]

/-- Test `key in cache` on a Python dict. -/
def dictContains (cache : List (K × Entry V)) (key : K) : Bool :=
  cache.any (fun kv => kv.1 = key)

/-- Lookup `cache[key]` on a Python dict, as an `Option`. -/
def dictGet? (cache : List (K × Entry V)) (key : K) : Option (Entry V) :=
  (cache.find? (fun kv => kv.1 = key)).map Prod.snd

/-- Assignment `cache[key] = e` on a Python dict: overwrite in place if the key is
present (keeping its position), otherwise append at the end. -/
def dictInsert (cache : List (K × Entry V)) (key : K) (e : Entry V) :
    List (K × Entry V) :=
  if dictContains cache key then
    cache.map (fun kv => if kv.1 = key then (key, e) else kv)
  else
    cache ++ [(key, e)]

/-- Statement `del cache[key]` on a Python dict (keys are unique, so removing the
key's unique occurrence is filtering it out). -/
def dictErase (cache : List (K × Entry V)) (key : K) : List (K × Entry V) :=
  cache.filter (fun kv => ¬ kv.1 = key)

/-- The `TimedPool` object: configuration attributes, the `_cache` dict,
and the storage of the inherited `dict` base class (`dictStore`), which the
class never writes to because every mutator is overridden to touch
`_cache` instead. -/
structure TimedPool (K V : Type) where
  max_size : Int
  ttl : Int
  clean_t : Int
  _cache : List (K × Entry V)
  dictStore : List (K × V)
deriving DecidableEq, Repr

namespace TimedPool

/-- Method `set(self, key, val, ttl=None)`:
if `ttl` is `None` take the default from the constructor; if
`len(self._cache) >= self.max_size and not key in self._cache` raise
`FullException()`; otherwise store
`{'data': val, 'expireTime': datetime.now() + ttl}`. -/
def set (p : TimedPool K V) (key : K) (val : V) (ttl? : Option Int)
    (now : Int) : Except FullException (TimedPool K V) :=
  if (p._cache.length : Int) ≥ p.max_size ∧ ¬ dictContains p._cache key then
    .error FullException.mk
  else
    .ok { p with
          _cache := dictInsert p._cache key ⟨val, now + ttl?.getD p.ttl⟩ }

/-- The state of the pool after a `set` call: the new state on success, the
old state when `FullException` was raised (the raise happens before the
single mutation in the body, so the object is untouched). -/
def setState (p : TimedPool K V) (key : K) (val : V) (ttl? : Option Int)
    (now : Int) : TimedPool K V :=
  match p.set key val ttl? now with
  | .ok q => q
  | .error _ => p

/-- Method `__setitem__(self, key, val)` is `self.set(key, val)` (default ttl). -/
def setItem (p : TimedPool K V) (key : K) (val : V) (now : Int) :
    Except FullException (TimedPool K V) :=
  p.set key val none now

/-- Method `__getitem__(self, key)`: `self._cache[key]['data']`, raising
`KeyError` when the key is absent. -/
def getItem (p : TimedPool K V) (key : K) : Except KeyError V :=
  match dictGet? p._cache key with
  | some e => .ok e.data
  | none => .error KeyError.mk

/-- Method `__delitem__(self, key)`: `del self._cache[key]` (under the lock),
raising `KeyError` when the key is absent. -/
def delItem (p : TimedPool K V) (key : K) :
    Except KeyError (TimedPool K V) :=
  if dictContains p._cache key then
    .ok { p with _cache := dictErase p._cache key }
  else
    .error KeyError.mk

/-- Method `__contains__(self, key)`: `key in self._cache`. -/
def contains (p : TimedPool K V) (key : K) : Bool :=
  dictContains p._cache key

/-- Method `__len__(self)`: `len(self._cache)`. -/
def size (p : TimedPool K V) : Nat :=
  p._cache.length

/-- Method `clear(self)`: `self._cache.clear()`. -/
def clear (p : TimedPool K V) : TimedPool K V :=
  { p with _cache := [] }

/-- The `deleting` list computed by one iteration of `_cleaner`:
`[k for k, v in self._cache.items() if v["expireTime"] < now]` where `now`
was snapshotted right after taking the lock. -/
def cleanerDeleting (p : TimedPool K V) (now : Int) : List K :=
  (p._cache.filter (fun kv => kv.2.expireTime < now)).map Prod.fst

/-- One tick of the `_cleaner` loop body: snapshot `now`, compute
`deleting`, then `for key in deleting: del self._cache[key]`. -/
def cleanerTick (p : TimedPool K V) (now : Int) : TimedPool K V :=
  { p with
    _cache := (p.cleanerDeleting now).foldl
      (fun c k => dictErase c k) p._cache }

/-- The observability emission of one `_cleaner` tick:
`if deleting: logging...debug("entries expired: %s", len(deleting))`,
i.e. the count is emitted exactly when `deleting` is nonempty. -/
def cleanerLog (p : TimedPool K V) (now : Int) : Option Nat :=
  if (p.cleanerDeleting now).isEmpty then none
  else some (p.cleanerDeleting now).length

/-- The population loop in `__init__`:
`for k, v in initial: try: self.set(k, v) except FullException: pass`.
Each pair is tagged with the `datetime.now()` of its own `set` call. -/
def initInsert (p : TimedPool K V) :
    List ((K × V) × Int) → TimedPool K V
  | [] => p
  | ((k, v), now) :: rest => initInsert (p.setState k v none now) rest

/-- Constructor `__init__(self, max_size=10, ttl=..., clean_t=120, initial=None)`:
clamp negative `max_size` and `clean_t` to 0, start with an empty cache
(the inherited dict storage is also empty and is never populated), then
insert the initial pairs through `set`, swallowing `FullException`. -/
def init (max_size ttl clean_t : Int)
    (pairs : List ((K × V) × Int)) : TimedPool K V :=
  initInsert
    { max_size := if max_size ≥ 0 then max_size else 0
      ttl := ttl
      clean_t := if clean_t ≥ 0 then clean_t else 0
      _cache := []
      dictStore := [] }
    pairs

/-- Iteration `iter(pool)` / `list(pool)`: `TimedPool` does not override
`__iter__`, so iteration enumerates the keys of the inherited dict
storage, not of `_cache`. -/
def iterKeys (p : TimedPool K V) : List K :=
  p.dictStore.map Prod.fst

/-- Call `pool.get(key, default)`: `dict.get` is not overridden either, so it
looks the key up in the inherited dict storage. -/
def getDefault (p : TimedPool K V) (key : K) (d : V) : V :=
  match p.dictStore.find? (fun kv => kv.1 = key) with
  | some kv => kv.2
  | none => d

end TimedPool

/-- One sequential pool operation (exceptions leave the state unchanged,
as in the Python methods, where every raise precedes the mutation). -/
inductive PoolOp (K V : Type) where
  | setOp (k : K) (v : V) (ttl? : Option Int) (now : Int)
  | delOp (k : K)
  | clearOp

/-- Apply one operation to the pool, keeping the old state when the
operation raises. -/
def applyOp (p : TimedPool K V) : PoolOp K V → TimedPool K V
  | .setOp k v t now => p.setState k v t now
  | .delOp k =>
    match p.delItem k with
    | .ok q => q
    | .error _ => p
  | .clearOp => p.clear

/-- Run a sequence of operations from left to right. -/
def runOps (p : TimedPool K V) (ops : List (PoolOp K V)) : TimedPool K V :=
  ops.foldl applyOp p

/-- Key-level simulation of the constructor's population loop: for each
incoming key in order, `set` admits it when it is already present
(overwrite) or when the current size is below the capacity, and
otherwise raises (and the constructor drops the pair). Only the key
sequence matters for which pairs are admitted. -/
def admitKeys (cap : Nat) (cur : List K) : List K → List K
  | [] => cur
  | k :: ks =>
    if k ∈ cur then admitKeys cap cur ks
    else if cur.length < cap then admitKeys cap (cur ++ [k]) ks
    else admitKeys cap cur ks

/-- Declarative side of the C8 refinement, following the spec's words:
the keys of the initial pairs in iteration order, first occurrence
winning the position ("exactly the earliest pairs that fit are
admitted" is then the `maxSize`-prefix of this list). -/
def firstKeys : List K → List K
  | [] => []
  | k :: ks => k :: (firstKeys ks).filter (fun x => ¬ x = k)

/-- Events of a method body relevant to the lock discipline: entering and
leaving a `with self._lock:` block, reads and writes of `self._cache`, the
capacity check of `set` (which reads `len(self._cache)` and
`key in self._cache`), and the logging call of `_cleaner`. -/
inductive Event where
  | acquire
  | release
  | capCheck
  | readCache
  | writeCache
  | emitLog
deriving DecidableEq, Repr

/-- Body of `set`, in source order: the capacity check
`len(self._cache) >= self.max_size and not key in self._cache` runs
before `with self._lock:`; the write `self._cache[key] = {...}` runs
inside it. -/
def set_trace : List Event :=
  [.capCheck, .acquire, .writeCache, .release]

/-- Body of `__getitem__`: a plain read of `self._cache`, no lock. -/
def getitem_trace : List Event :=
  [.readCache]

/-- Body of `__delitem__`: `with self._lock: del self._cache[key]`. -/
def delitem_trace : List Event :=
  [.acquire, .writeCache, .release]

/-- Body of `__contains__`: a plain read, no lock. -/
def contains_trace : List Event :=
  [.readCache]

/-- Body of `__len__`: a plain read, no lock. -/
def len_trace : List Event :=
  [.readCache]

/-- Body of `clear`: `self._cache.clear()` with no `with self._lock:`. -/
def clear_trace : List Event :=
  [.writeCache]

/-- One iteration of the `_cleaner` loop: under the lock, read the cache
to build `deleting` and delete those keys; then, after releasing the lock,
the logging call. -/
def cleaner_trace : List Event :=
  [.acquire, .readCache, .writeCache, .release, .emitLog]

/-- Walking `tr` with `allLockedAux rel d tr`: starting at lock depth `d`, `tr` with current lock depth `d`,
every event satisfying `rel` happens at positive depth. -/
def allLockedAux (rel : Event → Bool) : Nat → List Event → Bool
  | _, [] => true
  | d, Event.acquire :: tr => allLockedAux rel (d + 1) tr
  | d, Event.release :: tr => allLockedAux rel (d - 1) tr
  | d, e :: tr => (!(rel e) || decide (0 < d)) && allLockedAux rel d tr

/-- Every event of `tr` satisfying `rel` happens while the lock is held. -/
def allLocked (rel : Event → Bool) (tr : List Event) : Bool :=
  allLockedAux rel 0 tr

/-- Cache mutations. -/
def isWrite : Event → Bool
  | .writeCache => true
  | _ => false

/-- The capacity compare-and-admit check of `set`. -/
def isCapCheck : Event → Bool
  | .capCheck => true
  | _ => false

/-- Cache reads (scans) of any kind. -/
def isRead : Event → Bool
  | .readCache => true
  | .capCheck => true
  | _ => false

/-- A concrete pool at capacity (`max_size = 2`, two entries), used to
instantiate the general theorems; the entry under key `2` is already
expired at any time past `50`. -/
def poolW : TimedPool Nat Nat :=
  { max_size := 2
    ttl := 10
    clean_t := 5
    _cache := [(1, ⟨11, 100⟩), (2, ⟨22, 50⟩)]
    dictStore := [] }

/-- State of `poolW` after the overwrite `set(1, 99)` at time `0`. -/
def poolWafter : TimedPool Nat Nat :=
  { poolW with _cache := dictInsert poolW._cache 1 ⟨99, 0 + poolW.ttl⟩ }

/-- The pool of the failing input for the dict-compatibility claim:
`p = TimedPool(); p.set(1, 5)` (constructed with the Python defaults
`max_size=10`, `ttl=1h`, `clean_t=120`, no initial pairs). -/
def poolBug : TimedPool Nat Nat :=
  (TimedPool.init 10 3600 120 []).setState 1 5 none 0

/-! ## Lemmas about the Python dict model -/

theorem dictContains_iff {c : List (K × Entry V)} {k : K} :
    dictContains c k = true ↔ k ∈ c.map Prod.fst := by
  simp only [dictContains, List.any_eq_true, List.mem_map,
    decide_eq_true_eq]

theorem dictContains_eq_false_iff {c : List (K × Entry V)} {k : K} :
    dictContains c k = false ↔ ¬ k ∈ c.map Prod.fst := by
  rw [← Bool.not_eq_true, dictContains_iff]

theorem dictGet?_eq_none_iff {c : List (K × Entry V)} {k : K} :
    dictGet? c k = none ↔ dictContains c k = false := by
  rw [dictGet?, Option.map_eq_none', List.find?_eq_none,
    dictContains_eq_false_iff]
  simp only [decide_eq_true_eq, List.mem_map]
  constructor
  · rintro hall ⟨kv, hkv, rfl⟩
    exact hall kv hkv rfl
  · intro hnm kv hkv hk
    exact hnm ⟨kv, hkv, hk⟩

theorem dictGet?_isSome_iff {c : List (K × Entry V)} {k : K} :
    (dictGet? c k).isSome = true ↔ dictContains c k = true := by
  constructor
  · intro hs
    cases hc : dictContains c k with
    | false =>
      rw [dictGet?_eq_none_iff.mpr hc] at hs
      cases hs
    | true => rfl
  · intro hc
    cases hg : dictGet? c k with
    | none =>
      rw [dictGet?_eq_none_iff.mp hg] at hc
      cases hc
    | some e => rfl

theorem dictInsert_cons_ne {a : K × Entry V} {c : List (K × Entry V)}
    {k : K} {e : Entry V} (h : ¬ a.1 = k) :
    dictInsert (a :: c) k e = a :: dictInsert c k e := by
  have hc : dictContains (a :: c) k = dictContains c k := by
    simp [dictContains, h]
  by_cases hck : dictContains c k = true
  · simp [dictInsert, hc, hck, h]
  · simp [dictInsert, hc, hck]

theorem dictGet?_cons_ne {a : K × Entry V} {c : List (K × Entry V)}
    {k : K} (h : ¬ a.1 = k) :
    dictGet? (a :: c) k = dictGet? c k := by
  simp [dictGet?, List.find?_cons_of_neg, h]

theorem dictGet?_insert_self (c : List (K × Entry V)) (k : K)
    (e : Entry V) : dictGet? (dictInsert c k e) k = some e := by
  induction c with
  | nil => simp [dictInsert, dictContains, dictGet?]
  | cons a c ih =>
    by_cases hak : a.1 = k
    · have hc : dictContains (a :: c) k = true := by
        simp [dictContains, hak]
      simp only [dictInsert, hc, if_true, List.map_cons, hak, if_pos]
      simp [dictGet?]
    · rw [dictInsert_cons_ne hak, dictGet?_cons_ne hak]
      exact ih

theorem dictGet?_cons_eq {a : K × Entry V} {c : List (K × Entry V)}
    {k : K} (h : a.1 = k) :
    dictGet? (a :: c) k = some a.2 := by
  simp [dictGet?, List.find?_cons_of_pos, h]

theorem dictGet?_replace_ne (c : List (K × Entry V)) (k k' : K)
    (e : Entry V) (h : ¬ k' = k) :
    dictGet? (c.map (fun kv => if kv.1 = k then (k, e) else kv)) k'
      = dictGet? c k' := by
  induction c with
  | nil => rfl
  | cons a c ih =>
    by_cases hak : a.1 = k
    · rw [List.map_cons, if_pos hak,
        dictGet?_cons_ne (a := (k, e)) (fun hh => h hh.symm),
        dictGet?_cons_ne (a := a) (by rw [hak]; exact fun hh => h hh.symm)]
      exact ih
    · rw [List.map_cons, if_neg hak]
      by_cases hak' : a.1 = k'
      · rw [dictGet?_cons_eq hak', dictGet?_cons_eq hak']
      · rw [dictGet?_cons_ne hak', dictGet?_cons_ne hak']
        exact ih

theorem dictGet?_append_single_ne (c : List (K × Entry V)) (k k' : K)
    (e : Entry V) (h : ¬ k' = k) :
    dictGet? (c ++ [(k, e)]) k' = dictGet? c k' := by
  induction c with
  | nil =>
    have hkk : ¬ (k, e).1 = k' := fun hh => h hh.symm
    rw [List.nil_append, dictGet?_cons_ne hkk]
  | cons a c ih =>
    by_cases hak' : a.1 = k'
    · rw [List.cons_append, dictGet?_cons_eq hak', dictGet?_cons_eq hak']
    · rw [List.cons_append, dictGet?_cons_ne hak', dictGet?_cons_ne hak']
      exact ih

theorem dictGet?_insert_ne (c : List (K × Entry V)) (k k' : K)
    (e : Entry V) (h : ¬ k' = k) :
    dictGet? (dictInsert c k e) k' = dictGet? c k' := by
  by_cases hck : dictContains c k = true
  · rw [dictInsert, if_pos hck]
    exact dictGet?_replace_ne c k k' e h
  · rw [dictInsert, if_neg hck]
    exact dictGet?_append_single_ne c k k' e h

/-! ## Characterisation of `set` -/

theorem TimedPool.set_eq_error (p : TimedPool K V) (key : K) (val : V)
    (ttl? : Option Int) (now : Int)
    (h1 : (p._cache.length : Int) ≥ p.max_size)
    (h2 : dictContains p._cache key = false) :
    p.set key val ttl? now = .error FullException.mk := by
  rw [TimedPool.set, if_pos ⟨h1, by rw [h2]; exact Bool.false_ne_true⟩]

theorem TimedPool.set_eq_ok (p : TimedPool K V) (key : K) (val : V)
    (ttl? : Option Int) (now : Int)
    (h : dictContains p._cache key = true ∨
      (p._cache.length : Int) < p.max_size) :
    p.set key val ttl? now
      = .ok { p with
              _cache := dictInsert p._cache key
                ⟨val, now + ttl?.getD p.ttl⟩ } := by
  rw [TimedPool.set, if_neg]
  rintro ⟨hge, hnc⟩
  rcases h with hc | hlt
  · exact hnc hc
  · exact absurd hge (not_le.mpr hlt)

theorem dictInsert_length (c : List (K × Entry V)) (k : K) (e : Entry V) :
    (dictInsert c k e).length
      = if dictContains c k = true then c.length else c.length + 1 := by
  by_cases hc : dictContains c k = true
  · simp [dictInsert, hc]
  · simp [dictInsert, hc]

theorem TimedPool.setState_spec (p : TimedPool K V) (k : K) (v : V)
    (t? : Option Int) (now : Int) :
    p.setState k v t? now = p ∨
    (p.setState k v t? now
        = { p with
            _cache := dictInsert p._cache k ⟨v, now + t?.getD p.ttl⟩ } ∧
      (dictContains p._cache k = true ∨
        (p._cache.length : Int) < p.max_size)) := by
  rw [TimedPool.setState, TimedPool.set]
  by_cases hcond : ((p._cache.length : Int) ≥ p.max_size ∧
      ¬ dictContains p._cache k = true)
  · rw [if_pos hcond]
    exact Or.inl rfl
  · rw [if_neg hcond]
    refine Or.inr ⟨rfl, ?_⟩
    by_cases hc : dictContains p._cache k = true
    · exact Or.inl hc
    · exact Or.inr (lt_of_not_ge fun hge => hcond ⟨hge, hc⟩)

theorem TimedPool.setState_size_bound (p : TimedPool K V) (k : K) (v : V)
    (t? : Option Int) (now : Int)
    (h0 : 0 ≤ p.max_size) (hs : (p.size : Int) ≤ p.max_size) :
    0 ≤ (p.setState k v t? now).max_size ∧
    ((p.setState k v t? now).size : Int)
      ≤ (p.setState k v t? now).max_size := by
  rcases TimedPool.setState_spec p k v t? now with h | ⟨h, hcase⟩
  · rw [h]
    exact ⟨h0, hs⟩
  · rw [h]
    refine ⟨h0, ?_⟩
    show ((dictInsert p._cache k ⟨v, now + t?.getD p.ttl⟩).length : Int)
      ≤ p.max_size
    rw [dictInsert_length]
    by_cases hc : dictContains p._cache k = true
    · rw [if_pos hc]
      exact hs
    · rw [if_neg hc]
      rcases hcase with hc' | hlt
      · exact absurd hc' hc
      · push_cast
        omega

theorem applyOp_size_bound (p : TimedPool K V) (op : PoolOp K V)
    (h0 : 0 ≤ p.max_size) (hs : (p.size : Int) ≤ p.max_size) :
    0 ≤ (applyOp p op).max_size ∧
    ((applyOp p op).size : Int) ≤ (applyOp p op).max_size := by
  cases op with
  | setOp k v t? now => exact TimedPool.setState_size_bound p k v t? now h0 hs
  | delOp k =>
    simp only [applyOp]
    rw [TimedPool.delItem]
    by_cases hc : dictContains p._cache k = true
    · rw [if_pos hc]
      refine ⟨h0, ?_⟩
      show ((dictErase p._cache k).length : Int) ≤ p.max_size
      refine le_trans ?_ hs
      exact_mod_cast List.length_filter_le _ p._cache
    · rw [if_neg hc]
      exact ⟨h0, hs⟩
  | clearOp =>
    refine ⟨h0, ?_⟩
    show ((List.length ([] : List (K × Entry V)) : Nat) : Int) ≤ p.max_size
    simpa using h0

theorem runOps_size_bound (ops : List (PoolOp K V)) :
    ∀ p : TimedPool K V, 0 ≤ p.max_size → (p.size : Int) ≤ p.max_size →
      0 ≤ (runOps p ops).max_size ∧
      ((runOps p ops).size : Int) ≤ (runOps p ops).max_size := by
  induction ops with
  | nil => exact fun p h0 hs => ⟨h0, hs⟩
  | cons op ops ih =>
    intro p h0 hs
    have hstep := applyOp_size_bound p op h0 hs
    exact ih (applyOp p op) hstep.1 hstep.2

theorem initInsert_size_bound (pairs : List ((K × V) × Int)) :
    ∀ p : TimedPool K V, 0 ≤ p.max_size → (p.size : Int) ≤ p.max_size →
      0 ≤ (TimedPool.initInsert p pairs).max_size ∧
      ((TimedPool.initInsert p pairs).size : Int)
        ≤ (TimedPool.initInsert p pairs).max_size := by
  induction pairs with
  | nil => exact fun p h0 hs => ⟨h0, hs⟩
  | cons kvn pairs ih =>
    intro p h0 hs
    obtain ⟨⟨k, v⟩, now⟩ := kvn
    have hstep := TimedPool.setState_size_bound p k v none now h0 hs
    exact ih (p.setState k v none now) hstep.1 hstep.2

theorem foldl_dictErase_eq_filter (ks : List K) :
    ∀ c : List (K × Entry V),
      ks.foldl (fun c k => dictErase c k) c
        = c.filter (fun kv => decide (¬ kv.1 ∈ ks)) := by
  induction ks with
  | nil =>
    intro c
    simp
  | cons k ks ih =>
    intro c
    rw [List.foldl_cons]
    show ks.foldl (fun c k => dictErase c k) (dictErase c k) = _
    rw [ih (dictErase c k), dictErase, List.filter_filter]
    apply List.filter_congr
    intro kv _
    rw [Bool.and_comm]
    simp [List.mem_cons, not_or]

theorem cleanerTick_cache (p : TimedPool K V) (now : Int)
    (h : (p._cache.map Prod.fst).Nodup) :
    (p.cleanerTick now)._cache
      = p._cache.filter (fun kv => ¬ kv.2.expireTime < now) := by
  show (p.cleanerDeleting now).foldl (fun c k => dictErase c k) p._cache = _
  rw [foldl_dictErase_eq_filter]
  apply List.filter_congr
  intro kv hkv
  rw [decide_eq_decide]
  apply not_congr
  constructor
  · intro hmem
    obtain ⟨kv', hkv', hfst⟩ := List.mem_map.mp hmem
    have h2 := List.mem_filter.mp hkv'
    have heq := List.inj_on_of_nodup_map h h2.1 hkv hfst
    rw [← heq]
    exact of_decide_eq_true h2.2
  · intro hexp2
    exact List.mem_map.mpr
      ⟨kv, List.mem_filter.mpr ⟨hkv, decide_eq_true hexp2⟩, rfl⟩

theorem dictInsert_keys_contains {c : List (K × Entry V)} {k : K}
    {e : Entry V} (h : dictContains c k = true) :
    (dictInsert c k e).map Prod.fst = c.map Prod.fst := by
  rw [dictInsert, if_pos h, List.map_map]
  have hfun : (Prod.fst ∘ fun kv : K × Entry V =>
      if kv.1 = k then (k, e) else kv) = Prod.fst := by
    funext kv
    by_cases hkv : kv.1 = k
    · simp [hkv]
    · simp [hkv]
  rw [hfun]

theorem dictInsert_keys_new {c : List (K × Entry V)} {k : K}
    {e : Entry V} (h : dictContains c k = false) :
    (dictInsert c k e).map Prod.fst = c.map Prod.fst ++ [k] := by
  rw [dictInsert, if_neg (by rw [h]; exact Bool.false_ne_true),
    List.map_append]
  rfl

theorem initInsert_keys (pairs : List ((K × V) × Int)) :
    ∀ (p : TimedPool K V) (cap : Nat), p.max_size = (cap : Int) →
      (TimedPool.initInsert p pairs)._cache.map Prod.fst
        = admitKeys cap (p._cache.map Prod.fst)
            (pairs.map (fun pr => pr.1.1)) := by
  induction pairs with
  | nil =>
    intro p cap hcap
    rfl
  | cons kvn pairs ih =>
    obtain ⟨⟨k, v⟩, now⟩ := kvn
    intro p cap hcap
    show (TimedPool.initInsert (p.setState k v none now) pairs)._cache.map
        Prod.fst
      = admitKeys cap (p._cache.map Prod.fst)
          (k :: pairs.map (fun pr => pr.1.1))
    by_cases hc : dictContains p._cache k = true
    · have hmem : k ∈ p._cache.map Prod.fst := dictContains_iff.mp hc
      have hcache : (p.setState k v none now)._cache
          = dictInsert p._cache k
              ⟨v, now + (none : Option Int).getD p.ttl⟩ := by
        rw [TimedPool.setState, TimedPool.set_eq_ok p k v none now
          (Or.inl hc)]
      have hmax : (p.setState k v none now).max_size = p.max_size := by
        rw [TimedPool.setState, TimedPool.set_eq_ok p k v none now
          (Or.inl hc)]
      rw [admitKeys, if_pos hmem,
        ih (p.setState k v none now) cap (by rw [hmax]; exact hcap),
        hcache, dictInsert_keys_contains hc]
    · have hmem : ¬ k ∈ p._cache.map Prod.fst := by
        rw [← dictContains_iff]
        exact hc
      have hcf : dictContains p._cache k = false := by
        cases hcc : dictContains p._cache k with
        | false => rfl
        | true => exact absurd hcc hc
      by_cases hlt : p._cache.length < cap
      · have hltZ : (p._cache.length : Int) < p.max_size := by
          rw [hcap]
          exact_mod_cast hlt
        have hcache : (p.setState k v none now)._cache
            = dictInsert p._cache k
                ⟨v, now + (none : Option Int).getD p.ttl⟩ := by
          rw [TimedPool.setState, TimedPool.set_eq_ok p k v none now
            (Or.inr hltZ)]
        have hmax : (p.setState k v none now).max_size = p.max_size := by
          rw [TimedPool.setState, TimedPool.set_eq_ok p k v none now
            (Or.inr hltZ)]
        have hlen : (p._cache.map Prod.fst).length < cap := by
          rw [List.length_map]
          exact hlt
        rw [admitKeys, if_neg hmem, if_pos hlen,
          ih (p.setState k v none now) cap (by rw [hmax]; exact hcap),
          hcache, dictInsert_keys_new hcf]
      · have hgeZ : (p._cache.length : Int) ≥ p.max_size := by
          rw [hcap]
          exact_mod_cast Nat.le_of_not_lt hlt
        have hset : p.setState k v none now = p := by
          rw [TimedPool.setState,
            TimedPool.set_eq_error p k v none now hgeZ hcf]
        have hlen : ¬ (p._cache.map Prod.fst).length < cap := by
          rw [List.length_map]
          exact hlt
        rw [admitKeys, if_neg hmem, if_neg hlen, hset, ih p cap hcap]

theorem admitKeys_spec (ks : List K) :
    ∀ (cur : List K) (cap : Nat), cur.Nodup → cur.length ≤ cap →
      admitKeys cap cur ks
        = cur ++ ((firstKeys ks).filter
            (fun x => decide (¬ x ∈ cur))).take (cap - cur.length) := by
  induction ks with
  | nil =>
    intro cur cap _ _
    simp [admitKeys, firstKeys]
  | cons k ks ih =>
    intro cur cap hnd hle
    by_cases hk : k ∈ cur
    · rw [admitKeys, if_pos hk, ih cur cap hnd hle, firstKeys,
        List.filter_cons_of_neg (by simp [hk]), List.filter_filter]
      have hfun : (fun a : K => decide (¬ a ∈ cur) && decide (¬ a = k))
          = (fun a : K => decide (¬ a ∈ cur)) := by
        funext a
        by_cases ha : a ∈ cur
        · simp [ha]
        · have hak : ¬ a = k := fun he => ha (he ▸ hk)
          simp [ha, hak]
      rw [hfun]
    · by_cases hlt : cur.length < cap
      · have hnd' : (cur ++ [k]).Nodup := by
          simp [List.nodup_append, hnd, hk]
        have hlen1 : (cur ++ [k]).length = cur.length + 1 := by
          simp
        have hle' : (cur ++ [k]).length ≤ cap := by
          rw [hlen1]
          omega
        rw [admitKeys, if_neg hk, if_pos hlt, ih (cur ++ [k]) cap hnd' hle']
        have hfid : (firstKeys ks).filter
              (fun x => decide (¬ x ∈ cur ++ [k]))
            = ((firstKeys ks).filter (fun x => ¬ x = k)).filter
                (fun x => decide (¬ x ∈ cur)) := by
          rw [List.filter_filter]
          have hfun : (fun a : K => decide (¬ a ∈ cur) && decide (¬ a = k))
              = (fun a : K => decide (¬ a ∈ cur ++ [k])) := by
            funext a
            by_cases ha : a ∈ cur
            · simp [ha]
            · by_cases hak : a = k
              · simp [ha, hak]
              · simp [ha, hak]
          rw [hfun]
        rw [hfid, firstKeys, List.filter_cons_of_pos (by simp [hk])]
        have hsub : cap - cur.length = (cap - (cur ++ [k]).length) + 1 := by
          rw [hlen1]
          omega
        rw [hsub, List.take_succ_cons, ← List.append_cons]
      · rw [admitKeys, if_neg hk, if_neg hlt, ih cur cap hnd hle]
        have h0 : cap - cur.length = 0 := by omega
        rw [h0, List.take_zero, List.take_zero]

/-! ## Claims -/

/-- C1: inserting a brand-new key into a pool whose size equals
`max_size` raises `FullException` (both through `set` and through the
assignment form `p[key] = value`) and leaves the pool, hence the storage
map with all its sizes, keys, values and expiry timestamps, unchanged. -/
theorem set_at_capacity_raises_full (p : TimedPool K V) (key : K)
    (val : V) (ttl? : Option Int) (now : Int)
    (hk : p.contains key = false)
    (hs : (p._cache.length : Int) = p.max_size) :
    p.set key val ttl? now = .error FullException.mk ∧
    p.setState key val ttl? now = p ∧
    p.setItem key val now = .error FullException.mk := by
  have he := TimedPool.set_eq_error p key val ttl? now (ge_of_eq hs) hk
  have he' := TimedPool.set_eq_error p key val none now (ge_of_eq hs) hk
  refine ⟨he, ?_, he'⟩
  rw [TimedPool.setState, he]

/-- Witness for C1: `poolW` holds 2 entries with `max_size = 2`; adding
the fresh key `3` raises and changes nothing. -/
theorem set_at_capacity_raises_full_witness :
    poolW.contains 3 = false ∧ ((poolW._cache.length : Int) = poolW.max_size) ∧
    (poolW.set 3 9 none 0 = .error FullException.mk ∧
      poolW.setState 3 9 none 0 = poolW ∧
      poolW.setItem 3 9 0 = .error FullException.mk) :=
  ⟨by decide, by decide,
    set_at_capacity_raises_full poolW 3 9 none 0 (by decide) (by decide)⟩

/-- C8: the constructor inserts the initial pairs in iteration order via
`set` (default ttl), swallowing every `FullException`, so the keys that
end up in the cache are exactly the earliest distinct keys that fit:
the `max_size`-prefix (after clamping) of the initial keys in
first-occurrence order. Later pairs with an already-admitted key only
overwrite that entry and keep its position. -/
theorem init_admits_first_fit (max_size ttl clean_t : Int)
    (pairs : List ((K × V) × Int)) :
    (TimedPool.init max_size ttl clean_t pairs)._cache.map Prod.fst
      = (firstKeys (pairs.map (fun pr => pr.1.1))).take
          (if max_size ≥ 0 then max_size else 0).toNat := by
  have hcap : (if max_size ≥ 0 then max_size else 0)
      = (((if max_size ≥ 0 then max_size else 0).toNat : Nat) : Int) := by
    split <;> omega
  rw [TimedPool.init, initInsert_keys pairs _
    ((if max_size ≥ 0 then max_size else 0).toNat) hcap]
  rw [show List.map Prod.fst ([] : List (K × Entry V)) = [] from rfl,
    admitKeys_spec _ [] _ List.nodup_nil (Nat.zero_le _)]
  simp

/-- C2: starting from a freshly constructed pool (any configuration, any
initial pairs) and running any sequence of `set`, `delete` and `clear`
operations, the size reported by `__len__` never exceeds `max_size` after
any operation completes. -/
theorem size_never_exceeds_max (max_size ttl clean_t : Int)
    (pairs : List ((K × V) × Int)) (ops : List (PoolOp K V)) :
    ((runOps (TimedPool.init max_size ttl clean_t pairs) ops).size : Int)
      ≤ (runOps (TimedPool.init max_size ttl clean_t pairs) ops).max_size := by
  have hbase0 : (0 : Int) ≤ (if max_size ≥ 0 then max_size else 0) := by
    split <;> omega
  have hinit := initInsert_size_bound (K := K) (V := V) pairs
    { max_size := if max_size ≥ 0 then max_size else 0
      ttl := ttl
      clean_t := if clean_t ≥ 0 then clean_t else 0
      _cache := []
      dictStore := [] } hbase0 (by simpa using hbase0)
  exact (runOps_size_bound ops _ hinit.1 hinit.2).2

/-- C4: methods `__getitem__` and `__contains__` never consult the expiry
timestamp: an entry physically present in `_cache`, even one whose
`expireTime` is already in the past, is returned by `get` and reported
present by `contains`. -/
theorem get_contains_ignore_expiry (p : TimedPool K V) (key : K)
    (e : Entry V) (now : Int)
    (hm : dictGet? p._cache key = some e)
    (_hexp : e.expireTime < now) :
    p.getItem key = .ok e.data ∧ p.contains key = true := by
  constructor
  · rw [TimedPool.getItem, hm]
  · rw [TimedPool.contains, ← dictGet?_isSome_iff, hm]
    rfl

/-- Witness for C4: in `poolW` the entry under key `2` expired at time
`50`, yet at time `60` both `get` and `contains` still see it. -/
theorem get_contains_ignore_expiry_witness :
    dictGet? poolW._cache 2 = some ⟨22, 50⟩ ∧
    ((Entry.mk (V := Nat) 22 50).expireTime < (60 : Int)) ∧
    (poolW.getItem 2 = .ok 22 ∧ poolW.contains 2 = true) :=
  ⟨by decide, by decide,
    get_contains_ignore_expiry poolW 2 ⟨22, 50⟩ 60 (by decide) (by decide)⟩

/-- C5: calling `set` on a key already present succeeds with no capacity
hypothesis at all (in particular at `size = max_size`), and the entry
afterwards holds the new value with expiry `now + ttl` where `ttl` is the
argument if given, the constructor default otherwise. -/
theorem set_overwrite_succeeds (p : TimedPool K V) (key : K) (val : V)
    (ttl? : Option Int) (now : Int) (h : p.contains key = true) :
    ∃ q, p.set key val ttl? now = .ok q ∧
      dictGet? q._cache key = some ⟨val, now + ttl?.getD p.ttl⟩ := by
  refine ⟨_, TimedPool.set_eq_ok p key val ttl? now (Or.inl h), ?_⟩
  exact dictGet?_insert_self p._cache key _

/-- Witness for C5: overwriting key `1` of the at-capacity `poolW` with
an explicit ttl succeeds and rewrites value and expiry. -/
theorem set_overwrite_succeeds_witness :
    poolW.contains 1 = true ∧
    (∃ q, poolW.set 1 99 (some 7) 0 = .ok q ∧
      dictGet? q._cache 1 = some ⟨99, 0 + (some 7).getD poolW.ttl⟩) :=
  ⟨by decide, set_overwrite_succeeds poolW 1 99 (some 7) 0 (by decide)⟩

/-- C6: one `_cleaner` tick at snapshot time `now` deletes exactly the
entries whose `expireTime` is strictly earlier than `now` (all others
survive, order preserved), and the debug message carries the count of
removed entries and is emitted exactly when that count is nonzero. -/
theorem cleaner_tick_spec (p : TimedPool K V) (now : Int)
    (h : (p._cache.map Prod.fst).Nodup) :
    (p.cleanerTick now)._cache
        = p._cache.filter (fun kv => ¬ kv.2.expireTime < now) ∧
    p.cleanerLog now
        = if (p._cache.filter (fun kv => kv.2.expireTime < now)).length = 0
          then none
          else
            some
              ((p._cache.filter (fun kv => kv.2.expireTime < now)).length) := by
  refine ⟨cleanerTick_cache p now h, ?_⟩
  rw [TimedPool.cleanerLog]
  have hlen : (p.cleanerDeleting now).length
      = (p._cache.filter (fun kv => kv.2.expireTime < now)).length := by
    rw [TimedPool.cleanerDeleting, List.length_map]
  by_cases h0 : (p.cleanerDeleting now).isEmpty = true
  · rw [if_pos h0, if_pos]
    rw [← hlen, List.length_eq_zero]
    exact List.isEmpty_iff.mp h0
  · rw [if_neg h0, if_neg, hlen]
    rw [← hlen, List.length_eq_zero]
    intro hnil
    exact h0 (List.isEmpty_iff.mpr hnil)

/-- Witness for C6: sweeping `poolW` at time `60` removes exactly the
entry under key `2` (expired at `50`), keeps the entry under key `1`,
and logs the count `1`. -/
theorem cleaner_tick_spec_witness :
    (poolW._cache.map Prod.fst).Nodup ∧
    ((poolW.cleanerTick 60)._cache
        = poolW._cache.filter (fun kv => ¬ kv.2.expireTime < 60) ∧
      poolW.cleanerLog 60
        = if (poolW._cache.filter
              (fun kv => kv.2.expireTime < 60)).length = 0
          then none
          else
            some
              ((poolW._cache.filter
                (fun kv => kv.2.expireTime < 60)).length)) :=
  ⟨by decide, cleaner_tick_spec poolW 60 (by decide)⟩

/-- C7: for any pool and key, `__getitem__` raises `KeyError` exactly
when the key is absent from `_cache`, and so does `__delitem__`. -/
theorem absent_key_raises_key_error (p : TimedPool K V) (key : K) :
    (p.getItem key = .error KeyError.mk ↔ p.contains key = false) ∧
    (p.delItem key = .error KeyError.mk ↔ p.contains key = false) := by
  rw [TimedPool.contains]
  cases hc : dictContains p._cache key with
  | false =>
    constructor
    · rw [TimedPool.getItem, dictGet?_eq_none_iff.mpr hc]
      simp
    · rw [TimedPool.delItem, if_neg (by rw [hc]; exact Bool.false_ne_true)]
      simp
  | true =>
    have hs : (dictGet? p._cache key).isSome = true :=
      dictGet?_isSome_iff.mpr hc
    obtain ⟨e, he⟩ := Option.isSome_iff_exists.mp hs
    constructor
    · rw [TimedPool.getItem, he]
      simp
    · rw [TimedPool.delItem, if_pos hc]
      simp

/-- C10: a successful `set` changes no other key's entry (neither value
nor expiry) and none of the configuration attributes. -/
theorem set_frame (p : TimedPool K V) (key : K) (val : V)
    (ttl? : Option Int) (now : Int) (q : TimedPool K V)
    (h : p.set key val ttl? now = .ok q) :
    (∀ k', ¬ k' = key → dictGet? q._cache k' = dictGet? p._cache k') ∧
    q.max_size = p.max_size ∧ q.ttl = p.ttl ∧ q.clean_t = p.clean_t ∧
    q.dictStore = p.dictStore := by
  rw [TimedPool.set] at h
  by_cases hcond : ((p._cache.length : Int) ≥ p.max_size ∧
      ¬ dictContains p._cache key = true)
  · rw [if_pos hcond] at h
    cases h
  · rw [if_neg hcond] at h
    injection h with h
    subst h
    exact ⟨fun k' hk' => dictGet?_insert_ne p._cache key k' _ hk',
      rfl, rfl, rfl, rfl⟩

/-- C3, counterexample to the claimed pass-through (a bug in the code,
witnessed by the repository's own tests): after `p = TimedPool()` and
`p.set(1, 5)`, the key is in the cache (`contains` is overridden and
sees it), yet `list(p)` is empty and `p.get(1, 99)` returns the default
`99`, because iteration, `keys`, `get`-with-default, `pop`, `popitem`
and `fromkeys`-lookups are inherited from `dict` and read the inherited
dict storage, which no `TimedPool` method ever populates. The tests
`test_iter`, `test_keys`, `test_get`, `test_popitem` of
`tests/test_timedpool.py` assert the claimed behavior and fail on this
code. -/
theorem dict_compat_misses_cache :
    poolBug.contains 1 = true ∧
    poolBug.iterKeys = [] ∧
    poolBug.getDefault 1 99 = 99 ∧
    poolBug.dictStore = [] := by
  decide

/-- Witness for C10: the overwrite `set(1, 99)` on `poolW` leaves the
entry under key `2` and all configuration attributes unchanged. -/
theorem set_frame_witness :
    poolW.set 1 99 none 0 = .ok poolWafter ∧
    ((∀ k', ¬ k' = 1 →
        dictGet? poolWafter._cache k' = dictGet? poolW._cache k') ∧
      poolWafter.max_size = poolW.max_size ∧
      poolWafter.ttl = poolW.ttl ∧
      poolWafter.clean_t = poolW.clean_t ∧
      poolWafter.dictStore = poolW.dictStore) :=
  ⟨by rw [TimedPool.set_eq_ok poolW 1 99 none 0 (Or.inl (by decide))]; rfl,
    set_frame poolW 1 99 none 0 poolWafter
      (by rw [TimedPool.set_eq_ok poolW 1 99 none 0 (Or.inl (by decide))]
          rfl)⟩

/-- C9, counterexample: the claim that every mutation of the storage map
(the writes of `set`, `__delitem__`, `clear` and the sweeper, and also
`set`'s capacity compare-and-admit check) happens while the lock is held
is false on the code: `clear` writes the cache with no `with self._lock:`
block at all, and `set` evaluates its capacity check before entering its
`with self._lock:` block. -/
theorem mutations_not_all_locked :
    ¬ (allLocked isWrite set_trace = true ∧
       allLocked isCapCheck set_trace = true ∧
       allLocked isWrite delitem_trace = true ∧
       allLocked isWrite clear_trace = true ∧
       allLocked isWrite cleaner_trace = true) := by
  decide

/-- C9, amended: the cache writes of `set`, `__delitem__` and the
sweeper's scan-and-delete all run under the lock, but `set`'s capacity
check runs before the lock is taken and `clear`'s mutation is not locked
at all (so the compare-and-admit sequence is not atomic). -/
theorem lock_discipline_actual :
    allLocked isWrite set_trace = true ∧
    allLocked isWrite delitem_trace = true ∧
    allLocked (fun e => isRead e || isWrite e) cleaner_trace = true ∧
    allLocked isCapCheck set_trace = false ∧
    allLocked isWrite clear_trace = false := by
  decide

end Timedpool
